import Mathlib

/-!
Shallow embedding of the Shop product-catalog browser.

The embedded code lives in `src/index.js` (main page logic: category index,
promotion evaluator, filter engine, section selectors, product modal) with the
media helpers of the `part_000` revision (`getProductMedia`) and the
click-tracking variant of `part_001` (`trackProductClick`).

Conventions of the embedding:
* JS strings are modelled through their character lists (`List Char`); the JS
  string methods `toLowerCase`, `trim` and `includes` are modelled by
  `jsLower`, `jsTrim` and `jsIncludes` below.
* Timestamps (`Date` values / ISO strings) are modelled as `Int` milliseconds
  since the epoch; `new Date(0)` is `0`, and the current time `new Date()`
  becomes an explicit `now : Int` parameter of the functions that read the
  clock.  The `oneWeekAgo` value computed by `setDate(getDate() - 7)` is
  modelled as `now - msPerWeek`.
* Optional record fields are `Option` values; a JS-falsy string field
  (absent or `""`) is checked explicitly where the code relies on truthiness.
* Prices and discount arithmetic use `ℚ` (the idealisation of JS number
  arithmetic on the decimal values involved).
-/

/-- JS `String.prototype.toLowerCase`, per character (basic-latin letters). -/
def jsLower (l : List Char) : List Char := l.map Char.toLower

/-- JS `String.prototype.trim`: drop whitespace from both ends. -/
def jsTrim (l : List Char) : List Char :=
  ((l.dropWhile Char.isWhitespace).reverse.dropWhile Char.isWhitespace).reverse

/-- Does `pat` occur at the very start of `hay`?  (Helper for `jsIncludes`.) -/
def listStartsWith : List Char → List Char → Bool
  | _, [] => true
  | [], _ :: _ => false
  | a :: as, b :: bs => a == b && listStartsWith as bs

/-- JS `hay.includes(pat)`: does `pat` occur contiguously inside `hay`? -/
def jsIncludes : List Char → List Char → Bool
  | [], pat => pat.isEmpty
  | _a :: t, pat => listStartsWith (_a :: t) pat || jsIncludes t pat

/-- A product record as delivered by the Supabase `products` table.
Field names follow the snake_case column names used by the code. -/
structure Product where
  id : String
  title : Option String := none
  description : Option String := none
  price : Option ℚ := none
  categories : Option (List String) := none
  image_urls : Option (List String) := none
  image_url : Option String := none
  is_featured : Option Bool := none
  discount_percent : Option Int := none
  promotion_start : Option Int := none
  promotion_end : Option Int := none
  created_at : Option Int := none
  click_count : Option Nat := none
  admin_notes : Option String := none
deriving Repr, DecidableEq

/-- The categories array of a product, `[]` when the field is absent
(the code guards every access with `Array.isArray(product.categories)`). -/
def Product.catsOf (p : Product) : List String := p.categories.getD []

/-- `hasActivePromotion` (src/index.js:142-151): a promotion is active iff
`discount_percent` is truthy and positive, `promotion_end` is set, and
`start ≤ now ≤ end` where a missing `promotion_start` is `new Date(0)`. -/
def hasActivePromotion (p : Product) (now : Int) : Bool :=
  match p.discount_percent with
  | none => false
  | some d =>
    if d ≤ 0 then false
    else
      match p.promotion_end with
      | none => false
      | some endT =>
        let start := p.promotion_start.getD 0
        decide (start ≤ now ∧ now ≤ endT)

/-- `getDiscountedPrice` (src/index.js:154-157): `null` when `price` is
JS-falsy (absent or `0`) or no promotion is active, otherwise
`price * (1 - discount_percent / 100)`.  The final wildcard arm is
unreachable: the guard ensures both fields are present. -/
def getDiscountedPrice (p : Product) (now : Int) : Option ℚ :=
  if p.price.getD 0 = 0 || !hasActivePromotion p now then none
  else
    match p.price, p.discount_percent with
    | some pr, some d => some (pr * (1 - (d : ℚ) / 100))
    | _, _ => none

/-- The category-pass test of `filterProducts` (src/index.js:251-260):
with a non-empty selection, a product passes iff its categories field is an
array containing every selected category (exact string equality). -/
def categoryPass (selected : List String) (p : Product) : Bool :=
  match p.categories with
  | none => false
  | some cats => selected.all (fun c => cats.contains c)

/-- The search-pass test of `filterProducts` (src/index.js:263-269) against a
pre-normalised (lowercased, trimmed) non-empty search term. -/
def searchPass (searchTerm : List Char) (p : Product) : Bool :=
  jsIncludes (jsLower (p.title.getD "").data) searchTerm ||
  jsIncludes (jsLower (p.description.getD "").data) searchTerm

/-- `filterProducts` (src/index.js:245-272), with the DOM inputs
(`searchInput.value`, `selectedCategories`) made explicit parameters:
the search term is lowercased then trimmed; an empty selection skips the
category filter; an empty term skips the search filter. -/
def filterProducts (ps : List Product) (selected : List String)
    (searchRaw : String) : List Product :=
  let searchTerm := jsTrim (jsLower searchRaw.data)
  let f1 :=
    if selected.isEmpty then ps
    else ps.filter (categoryPass selected)
  if searchTerm.isEmpty then f1
  else f1.filter (searchPass searchTerm)

/-- Modelled from the spec (claim C1's wording, for comparison with
`filterProducts`): a product is visible iff (the required-category set is
empty OR the product's category set contains every required label) AND
(the search string trims to empty OR the trimmed string is a
case-insensitive substring of the title or of the description). -/
def visibleSpecPred (C : List String) (s : String) (p : Product) : Bool :=
  (C.isEmpty || C.all (fun c => (p.catsOf).contains c)) &&
  ((jsTrim s.data).isEmpty ||
    jsIncludes (jsLower (p.title.getD "").data) (jsLower (jsTrim s.data)) ||
    jsIncludes (jsLower (p.description.getD "").data) (jsLower (jsTrim s.data)))

/-- One step of the running category tally of `loadCategories`
(src/index.js:48-54): `categoryCounts[cat] = (categoryCounts[cat] || 0) + 1`.
The JS object is modelled as an insertion-ordered association list: an
existing key is incremented in place, a new key is appended at the end. -/
def bump : List (String × Nat) → String → List (String × Nat)
  | [], c => [(c, 1)]
  | (k, n) :: rest, c =>
    if k = c then (k, n + 1) :: rest else (k, n) :: bump rest c

/-- The unsorted category tally of `loadCategories` (src/index.js:45-58):
scan every product's categories array in order, bumping the tally. -/
def categoryCountsRaw (ps : List Product) : List (String × Nat) :=
  ps.foldl (fun m p => (p.catsOf).foldl bump m) []

/-- Stable insertion of `x` into `l`, placing `x` before the first element
`y` with `ge x y` (so equal keys keep their relative order).  Models one step
of JS `Array.prototype.sort`, which is stable. -/
def insertByDesc (ge : α → α → Bool) (x : α) : List α → List α
  | [] => [x]
  | y :: ys => if ge x y then x :: y :: ys else y :: insertByDesc ge x ys

/-- Stable sort modelling JS `array.sort((a, b) => key(b) - key(a))`:
descending by key, ties in input order. -/
def sortByDesc (ge : α → α → Bool) : List α → List α
  | [] => []
  | x :: xs => insertByDesc ge x (sortByDesc ge xs)

/-- Comparator of `loadCategories` (src/index.js:59):
`(a, b) => b.count - a.count`, i.e. descending by count. -/
def countGe (a b : String × Nat) : Bool := decide (b.2 ≤ a.2)

/-- `allCategoriesWithCounts` as computed by `loadCategories`
(src/index.js:45-59): the tally converted to `{name, count}` entries and
stable-sorted by count descending. -/
def allCategoriesWithCounts (ps : List Product) : List (String × Nat) :=
  sortByDesc countGe (categoryCountsRaw ps)

/-- Append a label unless already seen (helper describing the key order of a
JS object built by repeated `obj[k] = ...` assignments). -/
def insertSeen (acc : List String) (c : String) : List String :=
  if acc.contains c then acc else acc ++ [c]

/-- The distinct labels of `cs` in order of first occurrence. -/
def firstSeenList (cs : List String) : List String := cs.foldl insertSeen []

/-- All category occurrences of the collection, in scan order. -/
def collectCats (ps : List Product) : List String := ps.flatMap Product.catsOf

/-- The count stored for label `c` in an association list (0 if absent);
reads the first matching key, like a JS object property access. -/
def getCount : List (String × Nat) → String → Nat
  | [], _ => 0
  | (k, n) :: rest, c => if k = c then n else getCount rest c

/-- `new Date()` minus 7 days (src/index.js:175-176), in milliseconds. -/
def msPerWeek : Int := 7 * 24 * 60 * 60 * 1000

/-- The recency test of `renderRecentProducts` (src/index.js:180):
`p.created_at && new Date(p.created_at) >= oneWeekAgo`. -/
def isRecent (now : Int) (p : Product) : Bool :=
  match p.created_at with
  | none => false
  | some t => decide (now - msPerWeek ≤ t)

/-- Sort key of `renderRecentProducts` (src/index.js:181); every sorted
product passed the `created_at` truthiness filter, so the default is inert. -/
def createdKey (p : Product) : Int := p.created_at.getD 0

/-- Comparator of src/index.js:181: `(a, b) => created(b) - created(a)`. -/
def createdGe (a b : Product) : Bool := decide (createdKey b ≤ createdKey a)

/-- `renderRecentProducts` (src/index.js:174-194) as a view-model: products
created within the last week, sorted descending by `created_at`, first 8;
`none` models the suppressed section (`display = 'none'`). -/
def renderRecentProducts (ps : List Product) (now : Int) : Option (List Product) :=
  let recentWithinWeek := (sortByDesc createdGe (ps.filter (isRecent now))).take 8
  if recentWithinWeek.isEmpty then none else some recentWithinWeek

/-- The detail-view selection state: no modal, or one open product with the
index of the gallery thumbnail currently marked `active`. -/
inductive ModalState where
  | closed
  | opened (productId : String) (mediaIndex : Nat)
deriving Repr, DecidableEq

/-- The fixed placeholder shown when a product has no media
(src/index.js:281). -/
def placeholderImage : String := "https://via.placeholder.com/400x400?text=No+Image"

/-- The `image_url` fallback arm of the media derivation
(`product.image_url ? [product.image_url] : []`): a JS-falsy `image_url`
(absent or the empty string) yields the empty sequence. -/
def singleImageFallback (p : Product) : List String :=
  match p.image_url with
  | none => []
  | some u => if u.data.isEmpty then [] else [u]

/-- `getProductMedia` (part_000:81-86, inlined at src/index.js:277-280):
`image_urls` when it is a non-empty array, else the `image_url` fallback. -/
def getProductMedia (p : Product) : List String :=
  match p.image_urls with
  | some urls => if urls.isEmpty then singleImageFallback p else urls
  | none => singleImageFallback p

/-- The main media slot of `renderProductCard` (src/index.js:281): the first
media item, or the placeholder when the media sequence is empty. -/
def mainImage (p : Product) : String := (getProductMedia p).headD placeholderImage

/-- `openProductModal` (src/index.js:339-341) at the state-machine level:
`allProducts.find(p => p.id === productId)`; an unknown id returns before any
state is touched, a known id opens the modal with the first thumbnail
(`idx === 0`) active. -/
def openProductModal (ps : List Product) (st : ModalState) (pid : String) : ModalState :=
  match ps.find? (fun p => p.id == pid) with
  | none => st
  | some _ => ModalState.opened pid 0

/-- Media selection at the state-machine level.  The modal body rendered by
`openProductModal` (src/index.js:390-403) has one clickable `gallery-thumb`
per index of the open product's media list, and only when that list has more
than one element; clicking thumbnail `i` runs `changeModalMedia`
(src/index.js:426-454), which moves the `active` class to exactly that
thumbnail.  An index with no thumbnail has no click handler, so it leaves the
selection unchanged, and with the modal closed there is no gallery at all. -/
def selectMedia (ps : List Product) (st : ModalState) (i : Nat) : ModalState :=
  match st with
  | ModalState.closed => ModalState.closed
  | ModalState.opened pid k =>
    match ps.find? (fun p => p.id == pid) with
    | none => ModalState.opened pid k
    | some p =>
      let media := getProductMedia p
      if 1 < media.length && i < media.length then ModalState.opened pid i
      else ModalState.opened pid k

/-- Outcome of the `fetch` in `trackProductClick` (part_001:336-347): the
request either completes with some HTTP status (any status — the code never
reads `response.ok`), or throws before completing. -/
inductive FetchOutcome where
  | completes (status : Nat)
  | throws
deriving Repr, DecidableEq

/-- The local-cache update of `trackProductClick` (part_001:350-353):
`allProducts.find(p => p.id === productId)` and increment that product's
`click_count` (`(product.click_count || 0) + 1`); only the first match is
mutated, a missing id changes nothing. -/
def bumpClick : List Product → String → List Product
  | [], _ => []
  | p :: ps, pid =>
    if p.id == pid then
      { p with click_count := some (p.click_count.getD 0 + 1) } :: ps
    else p :: bumpClick ps pid

/-- `trackProductClick` (part_001:333-357): when the request completes —
whatever the status — the local count is bumped; when it throws, the `catch`
only logs and the collection is untouched. -/
def trackProductClick (ps : List Product) (pid : String) (o : FetchOutcome) :
    List Product :=
  match o with
  | FetchOutcome.throws => ps
  | FetchOutcome.completes _status => bumpClick ps pid

/-- `openProductModal` of the click-tracking variant (part_001:225-230):
the unknown-id guard runs first; a known id opens the modal and fires
`trackProductClick`. -/
def openProductModalTracked (ps : List Product) (st : ModalState) (pid : String)
    (o : FetchOutcome) : ModalState × List Product :=
  match ps.find? (fun p => p.id == pid) with
  | none => (st, ps)
  | some _ => (ModalState.opened pid 0, trackProductClick ps pid o)

/-- The view count displayed for a product id (part_001:288:
`product.click_count || 0` of the first product with that id). -/
def getClickCount (ps : List Product) (pid : String) : Nat :=
  match ps.find? (fun p => p.id == pid) with
  | none => 0
  | some p => p.click_count.getD 0

/-! Concrete sample data used by the witness and counterexample theorems. -/

/-- A product with no discount field at all (promotion dates irrelevant). -/
def productC2 : Product := { id := "c2", promotion_end := some 100 }

/-- A product whose price is set to the JS-falsy value `0` during an
otherwise active promotion. -/
def productC3 : Product :=
  { id := "c3", price := some 0, discount_percent := some 20,
    promotion_start := some 0, promotion_end := some 100 }

/-- A product with a non-zero price during an active 20% promotion. -/
def productC3w : Product :=
  { id := "c3w", price := some 5, discount_percent := some 20,
    promotion_end := some 100 }

/-- A product whose discount percent (150) lies above 100, with a live
promotion window. -/
def productC4 : Product :=
  { id := "c4", discount_percent := some 150, promotion_end := some 100 }

/-- A product with a zero discount percent and a live promotion window. -/
def productC4w : Product :=
  { id := "c4w", discount_percent := some 0, promotion_end := some 100 }

/-- A one-product collection that does not contain `"missing-id"`. -/
def productsC7 : List Product := [{ id := "p1" }]

/-- A product with a two-item media gallery. -/
def productC8 : Product := { id := "m", image_urls := some ["a.jpg", "b.jpg"] }

/-- The collection holding `productC8`. -/
def productsC8 : List Product := [productC8]

/-- A two-product collection for the click-tracking scenarios. -/
def productsC9 : List Product :=
  [{ id := "x", click_count := some 3 }, { id := "y" }]

/-- A product whose `image_urls` array is set and non-empty. -/
def productC10 : Product := { id := "c10", image_urls := some ["u1", "u2"] }

/-- Two products sharing the category `"sale"`; only one has `"tools"`. -/
def productsC5 : List Product :=
  [{ id := "a", categories := some ["tools", "sale"] },
   { id := "b", categories := some ["sale"] }]

/-- A dated sample product (older). -/
def productC6a : Product := { id := "r1", created_at := some 100 }

/-- A dated sample product (newer). -/
def productC6b : Product := { id := "r2", created_at := some 900 }

/-- A sample product with no `created_at`. -/
def productC6c : Product := { id := "r3" }

/-- A sample product dated one year after the reference time `0`. -/
def productC6f : Product := { id := "rf", created_at := some 31536000000 }

/-- Two dated products and one with no `created_at`. -/
def productsC6 : List Product := [productC6a, productC6b, productC6c]

/-! Helper lemmas. -/

/-- Lowercasing never turns a character into whitespace or back. -/
theorem isWhitespace_toLower (c : Char) :
    (Char.toLower c).isWhitespace = c.isWhitespace := by
  by_cases h : c.toNat ≥ 65 ∧ c.toNat ≤ 90
  · obtain ⟨h1, h2⟩ := h
    have hv : (c.toNat + 32).isValidChar := by
      left; omega
    have hd : Char.toLower c = Char.ofNat (c.toNat + 32) := by
      simp only [Char.toLower]
      rw [if_pos ⟨h1, h2⟩]
    have hval : (Char.ofNat (c.toNat + 32)).toNat = c.toNat + 32 := by
      rw [Char.ofNat, dif_pos hv]
      rfl
    rw [hd]
    have hlhs : (Char.ofNat (c.toNat + 32)).isWhitespace = false := by
      simp only [Char.isWhitespace, Bool.or_eq_false_iff, decide_eq_false_iff_not]
      refine ⟨⟨⟨?_, ?_⟩, ?_⟩, ?_⟩ <;>
        · intro heq
          have h3 := congrArg Char.toNat heq
          rw [hval] at h3
          simp only [show (' ').toNat = 32 from rfl, show ('\t').toNat = 9 from rfl,
            show ('\r').toNat = 13 from rfl, show ('\n').toNat = 10 from rfl] at h3
          omega
    have hrhs : c.isWhitespace = false := by
      simp only [Char.isWhitespace, Bool.or_eq_false_iff, decide_eq_false_iff_not]
      refine ⟨⟨⟨?_, ?_⟩, ?_⟩, ?_⟩ <;>
        · intro heq
          rw [heq] at h1
          exact absurd h1 (by decide)
    rw [hlhs, hrhs]
  · have hd : Char.toLower c = c := by
      simp only [Char.toLower]
      rw [if_neg h]
    rw [hd]

/-- Lowercasing and trimming commute (`s.toLowerCase().trim()` is
`s.trim().toLowerCase()`). -/
theorem jsTrim_jsLower (l : List Char) : jsTrim (jsLower l) = jsLower (jsTrim l) := by
  unfold jsTrim jsLower
  have hpred : (Char.isWhitespace ∘ Char.toLower) = Char.isWhitespace := by
    funext c
    exact isWhitespace_toLower c
  rw [List.dropWhile_map, hpred, ← List.map_reverse, List.dropWhile_map, hpred,
    ← List.map_reverse]

/-- Lowercasing preserves emptiness. -/
theorem jsLower_isEmpty (l : List Char) : (jsLower l).isEmpty = l.isEmpty := by
  cases l <;> rfl

/-- The characterisation of `hasActivePromotion` shared by several claims. -/
theorem hasActivePromotion_iff (p : Product) (now : Int) :
    hasActivePromotion p now = true ↔
      ((∃ d, p.discount_percent = some d ∧ 0 < d) ∧
       (∃ e, p.promotion_end = some e ∧
         p.promotion_start.getD 0 ≤ now ∧ now ≤ e)) := by
  unfold hasActivePromotion
  cases hd : p.discount_percent with
  | none => simp
  | some d =>
    dsimp only
    by_cases hd0 : d ≤ 0
    · simp only [if_pos hd0]
      simp only [Bool.false_eq_true, false_iff, not_and]
      intro hcon
      obtain ⟨d2, hd2, hd2pos⟩ := hcon
      injection hd2 with h2
      omega
    · rw [if_neg hd0]
      cases he : p.promotion_end with
      | none => simp
      | some e =>
        simp only [decide_eq_true_eq, Option.some.injEq]
        constructor
        · intro hrange
          exact ⟨⟨d, rfl, by omega⟩, ⟨e, rfl, hrange.1, hrange.2⟩⟩
        · rintro ⟨_, ⟨e2, he2, hs, hn⟩⟩
          exact ⟨hs, he2 ▸ hn⟩

/-- When a promotion is active, the discount field is present and positive. -/
theorem hasActivePromotion_discount (p : Product) (now : Int)
    (h : hasActivePromotion p now = true) :
    ∃ d, p.discount_percent = some d ∧ 0 < d :=
  ((hasActivePromotion_iff p now).mp h).1

/-! Claim theorems. -/

/-- C2: `hasActivePromotion p now` is true iff `discount_percent` is present
and positive, `promotion_end` is present, and `start ≤ now ≤ end` where a
missing `promotion_start` is the epoch start `0`; in particular it is false
when the discount is missing or `0`, or `promotion_end` is missing. -/
theorem hasActivePromotion_spec (p : Product) (now : Int) :
    (hasActivePromotion p now = true ↔
      ((∃ d, p.discount_percent = some d ∧ 0 < d) ∧
       (∃ e, p.promotion_end = some e ∧
         p.promotion_start.getD 0 ≤ now ∧ now ≤ e))) ∧
    ((p.discount_percent = none ∨ p.discount_percent = some 0 ∨
        p.promotion_end = none) →
      hasActivePromotion p now = false) := by
  refine ⟨hasActivePromotion_iff p now, fun h => ?_⟩
  cases hb : hasActivePromotion p now with
  | false => rfl
  | true =>
    exfalso
    obtain ⟨⟨d, hd, hd0⟩, ⟨e, he, _, _⟩⟩ := (hasActivePromotion_iff p now).mp hb
    rcases h with h | h | h
    · rw [h] at hd
      exact Option.noConfusion hd
    · rw [h] at hd
      injection hd with h2
      omega
    · rw [h] at he
      exact Option.noConfusion he

/-- C2 witness: a product with no discount field is never on promotion. -/
theorem hasActivePromotion_spec_witness :
    hasActivePromotion productC2 50 = false :=
  (hasActivePromotion_spec productC2 50).2 (Or.inl rfl)

/-- C4 counterexample: the code never checks the upper bound of
`discount_percent`; a product with a 150% discount and a live window is on
promotion, although the claim says any discount outside `(0, 100]` never is. -/
theorem hasActivePromotion_over_100_cex :
    productC4.discount_percent = some 150 ∧ (100 : Int) < 150 ∧
    hasActivePromotion productC4 50 = true :=
  ⟨rfl, by norm_num, by decide⟩

/-- C4 amended: a product whose `discount_percent` is missing or at most `0`,
or whose `promotion_end` is missing, is never on promotion (the code does not
validate the upper bound `100`, so discounts above 100 with a live window do
count as on promotion). -/
theorem hasActivePromotion_invalid_never (p : Product) (now : Int)
    (h : p.discount_percent = none ∨
      (∃ d, p.discount_percent = some d ∧ d ≤ 0) ∨
      p.promotion_end = none) :
    hasActivePromotion p now = false := by
  cases hb : hasActivePromotion p now with
  | false => rfl
  | true =>
    exfalso
    obtain ⟨⟨d, hd, hd0⟩, ⟨e, he, _, _⟩⟩ := (hasActivePromotion_iff p now).mp hb
    rcases h with h | ⟨d2, hd2, hd2le⟩ | h
    · rw [h] at hd
      exact Option.noConfusion hd
    · rw [hd2] at hd
      injection hd with h2
      omega
    · rw [h] at he
      exact Option.noConfusion he

/-- C4 amended witness: a zero discount with a live window is not on
promotion. -/
theorem hasActivePromotion_invalid_never_witness :
    hasActivePromotion productC4w 50 = false :=
  hasActivePromotion_invalid_never productC4w 50
    (Or.inr (Or.inl ⟨0, rfl, le_refl 0⟩))

/-- C7: opening a product id that is not in the collection is a silent no-op:
the selection state is returned unchanged (in particular `closed` stays
`closed`), and nothing else is touched. -/
theorem openProductModal_missing_noop (ps : List Product) (st : ModalState)
    (pid : String) (h : ∀ p ∈ ps, p.id ≠ pid) :
    openProductModal ps st pid = st := by
  unfold openProductModal
  have hf : ps.find? (fun p => p.id == pid) = none := by
    rw [List.find?_eq_none]
    intro p hp
    simpa using h p hp
  rw [hf]

/-- C7 witness: `open("missing-id")` on a collection without that id leaves
the state `closed`. -/
theorem openProductModal_missing_noop_witness :
    openProductModal productsC7 ModalState.closed "missing-id" = ModalState.closed :=
  openProductModal_missing_noop productsC7 ModalState.closed "missing-id" (by decide)

/-- C10: the media sequence is `image_urls` when that is a non-empty array,
else `[image_url]` when `image_url` is a set (non-empty) string, else empty;
an empty sequence puts the fixed placeholder in the main media slot, and a
non-empty one puts its first item there. -/
theorem getProductMedia_spec (p : Product) :
    (∀ urls, p.image_urls = some urls → urls ≠ [] → getProductMedia p = urls) ∧
    ((p.image_urls = none ∨ p.image_urls = some []) →
      (∀ u, p.image_url = some u → u.data ≠ [] → getProductMedia p = [u]) ∧
      ((p.image_url = none ∨ (∃ u, p.image_url = some u ∧ u.data = [])) →
        getProductMedia p = [])) ∧
    (getProductMedia p = [] → mainImage p = placeholderImage) ∧
    (∀ m ms, getProductMedia p = m :: ms → mainImage p = m) := by
  refine ⟨?_, ?_, ?_, ?_⟩
  · intro urls hu hne
    unfold getProductMedia
    rw [hu]
    cases urls with
    | nil => exact absurd rfl hne
    | cons a as => rfl
  · intro h2
    have hfall : getProductMedia p = singleImageFallback p := by
      unfold getProductMedia
      rcases h2 with h2 | h2 <;> rw [h2]
      rfl
    constructor
    · intro u hu hne
      rw [hfall]
      unfold singleImageFallback
      rw [hu]
      dsimp only
      cases hd : u.data with
      | nil => exact absurd hd hne
      | cons a as => rfl
    · intro h3
      rw [hfall]
      unfold singleImageFallback
      rcases h3 with h3 | ⟨u, hu, hud⟩
      · rw [h3]
      · rw [hu]
        dsimp only
        rw [hud]
        rfl
  · intro h
    unfold mainImage
    rw [h]
    rfl
  · intro m ms h
    unfold mainImage
    rw [h]
    rfl

/-- C10 witness: a set, non-empty `image_urls` array is the gallery. -/
theorem getProductMedia_spec_witness :
    getProductMedia productC10 = ["u1", "u2"] :=
  (getProductMedia_spec productC10).1 ["u1", "u2"] rfl (by decide)

/-- C3 counterexample: at `now = 50` the promotion of `productC3` is active
and its price is set to `0`, yet `getDiscountedPrice` returns `null` instead
of the claimed `0 * (1 - 20/100) = 0`. -/
theorem getDiscountedPrice_zero_price_cex :
    hasActivePromotion productC3 50 = true ∧
    productC3.price = some 0 ∧
    getDiscountedPrice productC3 50 = none ∧
    getDiscountedPrice productC3 50 ≠ some ((0 : ℚ) * (1 - (20 : ℚ) / 100)) := by
  refine ⟨by decide, rfl, ?_, ?_⟩
  · unfold getDiscountedPrice
    simp [productC3]
  · intro h
    rw [show getDiscountedPrice productC3 50 = none by unfold getDiscountedPrice; simp [productC3]] at h
    exact Option.noConfusion h

/-- C3 amended: `getDiscountedPrice` is absent exactly when the promotion is
inactive or the price is missing or `0` (a JS-falsy price counts as unset);
when the promotion is active and the price is a non-zero value `pr` with
discount `d`, it equals `pr * (1 - d/100)`. -/
theorem getDiscountedPrice_spec (p : Product) (now : Int) :
    (getDiscountedPrice p now = none ↔
      (hasActivePromotion p now = false ∨ p.price = none ∨ p.price = some 0)) ∧
    (∀ pr d, p.price = some pr → pr ≠ 0 → hasActivePromotion p now = true →
      p.discount_percent = some d →
      getDiscountedPrice p now = some (pr * (1 - (d : ℚ) / 100))) := by
  constructor
  · unfold getDiscountedPrice
    constructor
    · intro h
      by_cases hz : p.price.getD 0 = 0
      · cases hp : p.price with
        | none => exact Or.inr (Or.inl rfl)
        | some pr =>
          right; right
          rw [hp] at hz
          simp only [Option.getD_some] at hz
          rw [hz]
      · by_cases ha : hasActivePromotion p now
        · exfalso
          rw [if_neg (by simp [hz, ha])] at h
          obtain ⟨d, hd, _⟩ := hasActivePromotion_discount p now ha
          cases hp : p.price with
          | none => exact hz (by rw [hp]; rfl)
          | some pr =>
            rw [hp, hd] at h
            exact Option.noConfusion h
        · exact Or.inl (by simpa using ha)
    · intro h
      rcases h with h | h | h
      · rw [if_pos (by simp [h])]
      · rw [if_pos (by simp [h])]
      · rw [if_pos (by simp [h])]
  · intro pr d hp hpr ha hd
    unfold getDiscountedPrice
    rw [if_neg (by simp [hp, hpr, ha])]
    rw [hp, hd]

/-- C3 amended witness: price 5 at 20% off during a live promotion costs 4. -/
theorem getDiscountedPrice_spec_witness :
    getDiscountedPrice productC3w 50 = some 4 := by
  have h := (getDiscountedPrice_spec productC3w 50).2 5 20 rfl (by norm_num)
    (by decide) rfl
  rw [h]
  norm_num


/-- C8 counterexample: with the two-item gallery of `productC8` open at
index 0, `selectMedia 5` leaves the selection at index 0 (there is no sixth
thumbnail to click), instead of clamping to the last index 1 as claimed. -/
theorem selectMedia_no_clamp_cex :
    (getProductMedia productC8).length = 2 ∧
    selectMedia productsC8 (ModalState.opened "m" 0) 5 = ModalState.opened "m" 0 ∧
    selectMedia productsC8 (ModalState.opened "m" 0) 5 ≠ ModalState.opened "m" 1 :=
  ⟨by decide, by decide, by decide⟩

/-- C8 amended: in state `opened`, `selectMedia i` selects index `i` exactly
when thumbnail `i` exists (the gallery is rendered only when the open product
has more than one media item, and `i` must be below the media count); any
other index — in particular every index when the media sequence is empty —
is a no-op, with no clamping; in state `closed` it is a no-op. -/
theorem selectMedia_spec (ps : List Product) (pid : String) (k i : Nat)
    (p : Product) (hfind : ps.find? (fun q => q.id == pid) = some p) :
    (selectMedia ps ModalState.closed i = ModalState.closed) ∧
    ((1 < (getProductMedia p).length ∧ i < (getProductMedia p).length) →
      selectMedia ps (ModalState.opened pid k) i = ModalState.opened pid i) ∧
    (¬(1 < (getProductMedia p).length ∧ i < (getProductMedia p).length) →
      selectMedia ps (ModalState.opened pid k) i = ModalState.opened pid k) := by
  refine ⟨rfl, ?_, ?_⟩
  · intro h
    unfold selectMedia
    dsimp only
    rw [hfind]
    dsimp only
    rw [if_pos (by simp only [Bool.and_eq_true, decide_eq_true_eq]; exact h)]
  · intro h
    unfold selectMedia
    dsimp only
    rw [hfind]
    dsimp only
    rw [if_neg (by simp only [Bool.and_eq_true, decide_eq_true_eq]; exact h)]

/-- C8 amended witness: index 1 of the two-item gallery is selectable. -/
theorem selectMedia_spec_witness :
    selectMedia productsC8 (ModalState.opened "m" 0) 1 = ModalState.opened "m" 1 :=
  (selectMedia_spec productsC8 "m" 0 1 productC8 (by decide)).2.1 (by decide)

/-- Reading the displayed count below a matching head product. -/
theorem getClickCount_cons_pos (p : Product) (ps : List Product) (c : String)
    (h : (p.id == c) = true) :
    getClickCount (p :: ps) c = p.click_count.getD 0 := by
  unfold getClickCount
  rw [@List.find?_cons_of_pos _ (fun q => q.id == c) p ps h]

/-- Reading the displayed count skips a non-matching head product. -/
theorem getClickCount_cons_neg (p : Product) (ps : List Product) (c : String)
    (h : (p.id == c) = false) :
    getClickCount (p :: ps) c = getClickCount ps c := by
  unfold getClickCount
  rw [@List.find?_cons_of_neg _ (fun q => q.id == c) p ps (by simp [h])]

/-- Bumping the cached click count of a present product increments the
displayed count of that product by exactly one. -/
theorem bumpClick_found (ps : List Product) (pid : String)
    (h : (ps.find? (fun p => p.id == pid)).isSome) :
    getClickCount (bumpClick ps pid) pid = getClickCount ps pid + 1 := by
  induction ps with
  | nil => simp [List.find?] at h
  | cons p ps ih =>
    by_cases hp : (p.id == pid) = true
    · have hb : bumpClick (p :: ps) pid =
          { p with click_count := some (p.click_count.getD 0 + 1) } :: ps := by
        simp only [bumpClick]
        rw [if_pos hp]
      rw [hb, getClickCount_cons_pos _ _ _ (by exact hp),
        getClickCount_cons_pos _ _ _ hp]
      rfl
    · have hb : bumpClick (p :: ps) pid = p :: bumpClick ps pid := by
        simp only [bumpClick]
        rw [if_neg hp]
      have hpf : (p.id == pid) = false := by
        simpa using hp
      rw [hb, getClickCount_cons_neg _ _ _ hpf, getClickCount_cons_neg _ _ _ hpf]
      have h2 : (ps.find? (fun q => q.id == pid)).isSome := by
        rw [@List.find?_cons_of_neg _ (fun q => q.id == pid) p ps (by simp [hpf])] at h
        exact h
      exact ih h2

/-- Bumping one product's click count leaves every other id's displayed
count unchanged. -/
theorem bumpClick_other (ps : List Product) (pid c : String) (hne : c ≠ pid) :
    getClickCount (bumpClick ps pid) c = getClickCount ps c := by
  induction ps with
  | nil => rfl
  | cons p ps ih =>
    by_cases hp : (p.id == pid) = true
    · have hb : bumpClick (p :: ps) pid =
          { p with click_count := some (p.click_count.getD 0 + 1) } :: ps := by
        simp only [bumpClick]
        rw [if_pos hp]
      have hpc : (p.id == c) = false := by
        have hid : p.id = pid := by simpa using hp
        simp [hid, Ne.symm hne]
      rw [hb, getClickCount_cons_neg _ _ _ (by exact hpc),
        getClickCount_cons_neg _ _ _ hpc]
    · have hb : bumpClick (p :: ps) pid = p :: bumpClick ps pid := by
        simp only [bumpClick]
        rw [if_neg hp]
      rw [hb]
      by_cases hpc : (p.id == c) = true
      · rw [getClickCount_cons_pos _ _ _ hpc, getClickCount_cons_pos _ _ _ hpc]
      · have hpcf : (p.id == c) = false := by simpa using hpc
        rw [getClickCount_cons_neg _ _ _ hpcf, getClickCount_cons_neg _ _ _ hpcf]
        exact ih

/-- C9: opening a present product opens the modal and, when the increment
request completes — with any HTTP status, the code never checks it — bumps
the locally cached click count of exactly that product by one; when the
request throws, the collection is unchanged (the error is only logged). -/
theorem openProductModalTracked_spec (ps : List Product) (st : ModalState)
    (pid : String) (h : (ps.find? (fun p => p.id == pid)).isSome) :
    (∀ status,
      openProductModalTracked ps st pid (FetchOutcome.completes status) =
        (ModalState.opened pid 0, bumpClick ps pid) ∧
      getClickCount (bumpClick ps pid) pid = getClickCount ps pid + 1 ∧
      (∀ c, c ≠ pid → getClickCount (bumpClick ps pid) c = getClickCount ps c)) ∧
    openProductModalTracked ps st pid FetchOutcome.throws =
      (ModalState.opened pid 0, ps) := by
  obtain ⟨p, hp⟩ := Option.isSome_iff_exists.mp h
  constructor
  · intro status
    refine ⟨?_, bumpClick_found ps pid h, fun c hc => bumpClick_other ps pid c hc⟩
    unfold openProductModalTracked
    rw [hp]
    rfl
  · unfold openProductModalTracked
    rw [hp]
    rfl

/-- C9 witness: opening `"x"` with a rejected (HTTP 500) but completed
request still advances the cached count from 3 to 4. -/
theorem openProductModalTracked_spec_witness :
    openProductModalTracked productsC9 ModalState.closed "x"
        (FetchOutcome.completes 500) =
      (ModalState.opened "x" 0, bumpClick productsC9 "x") ∧
    getClickCount (bumpClick productsC9 "x") "x" =
      getClickCount productsC9 "x" + 1 :=
  ⟨((openProductModalTracked_spec productsC9 ModalState.closed "x"
      (by decide)).1 500).1,
   ((openProductModalTracked_spec productsC9 ModalState.closed "x"
      (by decide)).1 500).2.1⟩

/-- C1: the filter engine returns exactly the products, in their original
input order, that satisfy the claim's visibility predicate — AND of the
category superset test (vacuous for an empty selection) and the
case-insensitive trimmed-substring search over title and description
(vacuous when the search text trims to empty) — and with no selected
categories and an empty search string it returns the whole collection. -/
theorem filterProducts_spec (ps : List Product) (C : List String) (s : String) :
    filterProducts ps C s = ps.filter (visibleSpecPred C s) ∧
    filterProducts ps [] "" = ps := by
  constructor
  · unfold filterProducts
    dsimp only
    rw [jsTrim_jsLower]
    by_cases hC : C.isEmpty = true
    · by_cases hs : (jsTrim s.data).isEmpty = true
      · rw [if_pos hC, if_pos (by rw [jsLower_isEmpty]; exact hs)]
        symm
        rw [List.filter_eq_self]
        intro p _
        unfold visibleSpecPred
        rw [hC, hs]
        rfl
      · have hsf : (jsTrim s.data).isEmpty = false := by
          simpa using hs
        rw [if_pos hC, if_neg (by rw [jsLower_isEmpty, hsf]; exact Bool.false_ne_true)]
        apply List.filter_congr
        intro p _
        unfold searchPass visibleSpecPred
        rw [hC, hsf]
        simp [Bool.or_assoc]
    · have hCf : C.isEmpty = false := by
        simpa using hC
      have hcat : ∀ p : Product,
          categoryPass C p = C.all (fun c => (p.catsOf).contains c) := by
        intro p
        unfold categoryPass Product.catsOf
        cases hpc : p.categories with
        | some cats => rfl
        | none =>
          cases C with
          | nil => simp at hCf
          | cons c0 cs => simp
      have hCne : ¬(C.isEmpty = true) := by
        rw [hCf]
        exact Bool.false_ne_true
      by_cases hs : (jsTrim s.data).isEmpty = true
      · have hsl : (jsLower (jsTrim s.data)).isEmpty = true := by
          rw [jsLower_isEmpty]
          exact hs
        rw [if_neg hCne, if_pos hsl]
        apply List.filter_congr
        intro p _
        unfold visibleSpecPred
        rw [hCf, hs, hcat p]
        simp
      · have hsf : (jsTrim s.data).isEmpty = false := by
          simpa using hs
        have hsl : ¬((jsLower (jsTrim s.data)).isEmpty = true) := by
          rw [jsLower_isEmpty, hsf]
          exact Bool.false_ne_true
        rw [if_neg hCne, if_neg hsl]
        rw [List.filter_filter]
        apply List.filter_congr
        intro p _
        unfold searchPass visibleSpecPred
        rw [hCf, hsf, hcat p]
        simp [Bool.or_assoc, Bool.and_comm]
  · rfl

/-- Stable insertion permutes: the result holds the new element and the old
list. -/
theorem insertByDesc_perm (ge : α → α → Bool) (x : α) (l : List α) :
    List.Perm (insertByDesc ge x l) (x :: l) := by
  induction l with
  | nil => exact List.Perm.refl _
  | cons y ys ih =>
    simp only [insertByDesc]
    by_cases h : ge x y = true
    · rw [if_pos h]
    · rw [if_neg h]
      exact List.Perm.trans (List.Perm.cons y ih) (List.Perm.swap x y ys)

/-- The stable sort permutes its input. -/
theorem sortByDesc_perm (ge : α → α → Bool) (l : List α) :
    List.Perm (sortByDesc ge l) l := by
  induction l with
  | nil => exact List.Perm.refl _
  | cons x xs ih =>
    exact List.Perm.trans (insertByDesc_perm ge x _) (List.Perm.cons x ih)

/-- Inserting into a descending list keeps it descending, for a transitive
and total comparator. -/
theorem insertByDesc_pairwise (ge : α → α → Bool)
    (htrans : ∀ a b c, ge a b = true → ge b c = true → ge a c = true)
    (htot : ∀ a b, ge a b = false → ge b a = true)
    (x : α) (l : List α) (hl : l.Pairwise (fun a b => ge a b = true)) :
    (insertByDesc ge x l).Pairwise (fun a b => ge a b = true) := by
  induction l with
  | nil => simp [insertByDesc]
  | cons y ys ih =>
    simp only [insertByDesc]
    obtain ⟨hy, hys⟩ := List.pairwise_cons.mp hl
    by_cases h : ge x y = true
    · rw [if_pos h]
      refine List.pairwise_cons.mpr ⟨?_, hl⟩
      intro z hz
      rcases List.mem_cons.mp hz with rfl | hz2
      · exact h
      · exact htrans x y z h (hy z hz2)
    · rw [if_neg h]
      refine List.pairwise_cons.mpr ⟨?_, ih hys⟩
      intro z hz
      have hz2 := (insertByDesc_perm ge x ys).mem_iff.mp hz
      rcases List.mem_cons.mp hz2 with rfl | hz3
      · exact htot _ _ (by simpa using h)
      · exact hy z hz3

/-- The stable sort is descending, for a transitive and total comparator. -/
theorem sortByDesc_pairwise (ge : α → α → Bool)
    (htrans : ∀ a b c, ge a b = true → ge b c = true → ge a c = true)
    (htot : ∀ a b, ge a b = false → ge b a = true)
    (l : List α) :
    (sortByDesc ge l).Pairwise (fun a b => ge a b = true) := by
  induction l with
  | nil => exact List.Pairwise.nil
  | cons x xs ih => exact insertByDesc_pairwise ge htrans htot x _ ih

/-- C6 counterexample: the code's recency test has no upper bound at `now`.
A product dated a full year after `now = 0` — so its `created_at` does not
lie within the last 7 days of `now` — still fills the Recent section. -/
theorem renderRecentProducts_future_cex :
    productC6f.created_at = some 31536000000 ∧
    (0 : Int) < 31536000000 ∧
    renderRecentProducts [productC6f] 0 = some [productC6f] :=
  ⟨rfl, by norm_num, by decide⟩

/-- C6 amended: the Recent section is `none` exactly when no product has
`created_at ≥ now − 7 days` (the code checks only this lower bound, so
future-dated products qualify too); otherwise it holds exactly the
qualifying products (all of them when at most 8 qualify), sorted descending
by `created_at` and truncated to the first `min 8 count` of a descending
arrangement of all qualifying products — the last conjunct extends the
section to such an arrangement, which pins it as a top-8 prefix. -/
theorem renderRecentProducts_spec (ps : List Product) (now : Int) :
    (renderRecentProducts ps now = none ↔ ∀ p ∈ ps, isRecent now p = false) ∧
    (∀ l, renderRecentProducts ps now = some l →
      l ≠ [] ∧
      (∀ p ∈ l, p ∈ ps ∧ isRecent now p = true) ∧
      l.Pairwise (fun a b => createdKey b ≤ createdKey a) ∧
      l.length = min 8 (ps.countP (isRecent now)) ∧
      (ps.countP (isRecent now) ≤ 8 →
        List.Perm l (ps.filter (isRecent now))) ∧
      (∃ rest, List.Perm (l ++ rest) (ps.filter (isRecent now)) ∧
        (l ++ rest).Pairwise (fun a b => createdKey b ≤ createdKey a))) := by
  have hperm : List.Perm (sortByDesc createdGe (ps.filter (isRecent now)))
      (ps.filter (isRecent now)) := sortByDesc_perm _ _
  constructor
  · unfold renderRecentProducts
    dsimp only
    constructor
    · intro h
      by_cases he :
          ((sortByDesc createdGe (ps.filter (isRecent now))).take 8).isEmpty = true
      · have hnil : sortByDesc createdGe (ps.filter (isRecent now)) = [] := by
          cases hss : sortByDesc createdGe (ps.filter (isRecent now)) with
          | nil => rfl
          | cons a as =>
            rw [hss] at he
            simp [List.take] at he
        have hfnil : ps.filter (isRecent now) = [] := by
          have := hperm
          rw [hnil] at this
          exact (List.Perm.nil_eq this).symm
        intro p hp
        by_cases hr : isRecent now p = true
        · exfalso
          have : p ∈ ps.filter (isRecent now) := List.mem_filter.mpr ⟨hp, hr⟩
          rw [hfnil] at this
          exact absurd this (List.not_mem_nil p)
        · simpa using hr
      · rw [if_neg he] at h
        exact absurd h (Option.some_ne_none _)
    · intro h
      have hfnil : ps.filter (isRecent now) = [] := by
        rw [List.filter_eq_nil_iff]
        intro p hp
        rw [h p hp]
        exact Bool.false_ne_true
      have hnil : sortByDesc createdGe (ps.filter (isRecent now)) = [] := by
        rw [hfnil]
        rfl
      rw [hnil]
      rfl
  · intro l hl
    unfold renderRecentProducts at hl
    dsimp only at hl
    by_cases he :
        ((sortByDesc createdGe (ps.filter (isRecent now))).take 8).isEmpty = true
    · rw [if_pos he] at hl
      exact absurd hl (Option.noConfusion)
    · rw [if_neg he] at hl
      have hlval : l = (sortByDesc createdGe (ps.filter (isRecent now))).take 8 :=
        (Option.some.injEq _ _ ▸ hl).symm
      subst hlval
      have hs : (sortByDesc createdGe (ps.filter (isRecent now))).Pairwise
          (fun a b => createdGe a b = true) := by
        apply sortByDesc_pairwise
        · intro a b c hab hbc
          simp only [createdGe, decide_eq_true_eq] at *
          omega
        · intro a b hab
          simp only [createdGe, decide_eq_true_eq, decide_eq_false_iff_not] at *
          omega
      have hsle : (sortByDesc createdGe (ps.filter (isRecent now))).Pairwise
          (fun a b => createdKey b ≤ createdKey a) :=
        hs.imp (fun hab => by simpa [createdGe] using hab)
      refine ⟨?_, ?_, ?_, ?_, ?_, ?_⟩
      · intro hnil
        rw [hnil] at he
        exact he rfl
      · intro p hp
        have hp2 : p ∈ sortByDesc createdGe (ps.filter (isRecent now)) :=
          (List.take_sublist 8 _).mem hp
        have hp3 : p ∈ ps.filter (isRecent now) := hperm.mem_iff.mp hp2
        exact List.mem_filter.mp hp3
      · exact hsle.sublist (List.take_sublist 8 _)
      · rw [List.length_take, List.Perm.length_eq hperm,
          ← List.countP_eq_length_filter]
      · intro hle
        have hlen : (sortByDesc createdGe (ps.filter (isRecent now))).length ≤ 8 := by
          rw [List.Perm.length_eq hperm, ← List.countP_eq_length_filter]
          exact hle
        rw [List.take_of_length_le hlen]
        exact hperm
      · refine ⟨(sortByDesc createdGe (ps.filter (isRecent now))).drop 8, ?_, ?_⟩
        · rw [List.take_append_drop]
          exact hperm
        · rw [List.take_append_drop]
          exact hsle

/-- C6 witness: of the three sample products at `now = 1000`, the two dated
ones qualify and are returned newest first; the section is present. -/
theorem renderRecentProducts_spec_witness :
    ([productC6b, productC6a] : List Product) ≠ [] ∧
    ([productC6b, productC6a] : List Product).Pairwise
      (fun a b => createdKey b ≤ createdKey a) :=
  have h := (renderRecentProducts_spec productsC6 1000).2 [productC6b, productC6a]
    (by decide)
  ⟨h.1, h.2.2.1⟩

/-- `contains` on strings agrees with membership. -/
theorem strContains_iff_mem (l : List String) (c : String) :
    l.contains c = true ↔ c ∈ l :=
  List.elem_iff

/-- Bumping a label increments its stored count. -/
theorem bump_getCount_self (m : List (String × Nat)) (c : String) :
    getCount (bump m c) c = getCount m c + 1 := by
  induction m with
  | nil => simp [bump, getCount]
  | cons kn rest ih =>
    obtain ⟨k, n⟩ := kn
    simp only [bump]
    by_cases h : k = c
    · rw [if_pos h]
      simp only [getCount]
      rw [if_pos h, if_pos h]
    · rw [if_neg h]
      simp only [getCount]
      rw [if_neg h, if_neg h]
      exact ih

/-- Bumping a label leaves the other counts alone. -/
theorem bump_getCount_other (m : List (String × Nat)) (c c2 : String)
    (hne : c2 ≠ c) :
    getCount (bump m c) c2 = getCount m c2 := by
  induction m with
  | nil =>
    simp only [bump, getCount]
    rw [if_neg (fun h => hne h.symm)]
  | cons kn rest ih =>
    obtain ⟨k, n⟩ := kn
    simp only [bump]
    by_cases h : k = c
    · rw [if_pos h]
      have hk2 : k ≠ c2 := by
        rw [h]
        exact fun hh => hne hh.symm
      simp only [getCount]
      rw [if_neg hk2, if_neg hk2]
    · rw [if_neg h]
      simp only [getCount]
      by_cases h2 : k = c2
      · rw [if_pos h2, if_pos h2]
      · rw [if_neg h2, if_neg h2]
        exact ih

/-- A fresh label goes to the end of the key list; a seen one stays put. -/
theorem insertSeen_cons (k c : String) (l : List String) (h : k ≠ c) :
    insertSeen (k :: l) c = k :: insertSeen l c := by
  unfold insertSeen
  have hck : (c == k) = false := by
    simp [Ne.symm h]
  rw [List.contains_cons, hck, Bool.false_or]
  by_cases h2 : l.contains c = true
  · rw [if_pos h2, if_pos h2]
  · rw [if_neg h2, if_neg h2]
    rfl

/-- The key list of a bump is `insertSeen` on the key list. -/
theorem bump_keys (m : List (String × Nat)) (c : String) :
    (bump m c).map Prod.fst = insertSeen (m.map Prod.fst) c := by
  induction m with
  | nil => rfl
  | cons kn rest ih =>
    obtain ⟨k, n⟩ := kn
    simp only [bump]
    by_cases h : k = c
    · rw [if_pos h]
      subst h
      unfold insertSeen
      rw [if_pos (by simp)]
      simp
    · rw [if_neg h]
      simp only [List.map_cons]
      rw [ih, insertSeen_cons k c _ h]

/-- Bumping adds exactly one to the total of the stored counts. -/
theorem bump_sum (m : List (String × Nat)) (c : String) :
    ((bump m c).map Prod.snd).sum = (m.map Prod.snd).sum + 1 := by
  induction m with
  | nil => simp [bump]
  | cons kn rest ih =>
    obtain ⟨k, n⟩ := kn
    simp only [bump]
    by_cases h : k = c
    · rw [if_pos h]
      simp only [List.map_cons, List.sum_cons]
      omega
    · rw [if_neg h]
      simp only [List.map_cons, List.sum_cons]
      rw [ih]
      omega

/-- Bumping keeps every stored count positive. -/
theorem bump_pos (m : List (String × Nat)) (c : String)
    (h : ∀ e ∈ m, 0 < e.2) : ∀ e ∈ bump m c, 0 < e.2 := by
  induction m with
  | nil =>
    intro e he
    simp only [bump] at he
    rcases List.mem_singleton.mp he with rfl
    simp
  | cons kn rest ih =>
    obtain ⟨k, n⟩ := kn
    intro e he
    simp only [bump] at he
    by_cases hk : k = c
    · rw [if_pos hk] at he
      rcases List.mem_cons.mp he with rfl | he2
      · simp
      · exact h e (List.mem_cons_of_mem _ he2)
    · rw [if_neg hk] at he
      rcases List.mem_cons.mp he with rfl | he2
      · exact h _ (List.mem_cons_self _ _)
      · exact ih (fun e2 he3 => h e2 (List.mem_cons_of_mem _ he3)) e he2

/-- Folding a label stream over the tally: each label's count grows by its
number of occurrences. -/
theorem foldl_bump_getCount (cs : List String) (m : List (String × Nat))
    (c : String) :
    getCount (cs.foldl bump m) c = getCount m c + cs.count c := by
  induction cs generalizing m with
  | nil => simp
  | cons c0 cs ih =>
    simp only [List.foldl_cons]
    rw [ih]
    by_cases h : c0 = c
    · subst h
      rw [bump_getCount_self, List.count_cons_self]
      omega
    · rw [bump_getCount_other _ _ _ (fun hh => h hh.symm),
        List.count_cons_of_ne (fun hh => h hh.symm)]

/-- Folding a label stream over the tally: the key list grows by
first-seen insertion. -/
theorem foldl_bump_keys (cs : List String) (m : List (String × Nat)) :
    (cs.foldl bump m).map Prod.fst = cs.foldl insertSeen (m.map Prod.fst) := by
  induction cs generalizing m with
  | nil => rfl
  | cons c0 cs ih =>
    simp only [List.foldl_cons]
    rw [ih, bump_keys]

/-- Folding a label stream over the tally: the counts total grows by the
stream length. -/
theorem foldl_bump_sum (cs : List String) (m : List (String × Nat)) :
    ((cs.foldl bump m).map Prod.snd).sum = (m.map Prod.snd).sum + cs.length := by
  induction cs generalizing m with
  | nil => simp
  | cons c0 cs ih =>
    simp only [List.foldl_cons]
    rw [ih, bump_sum]
    simp only [List.length_cons]
    omega

/-- Folding a label stream over the tally keeps all counts positive. -/
theorem foldl_bump_pos (cs : List String) (m : List (String × Nat))
    (h : ∀ e ∈ m, 0 < e.2) : ∀ e ∈ cs.foldl bump m, 0 < e.2 := by
  induction cs generalizing m with
  | nil => exact h
  | cons c0 cs ih =>
    simp only [List.foldl_cons]
    exact ih _ (bump_pos m c0 h)

/-- Membership after a first-seen insertion. -/
theorem insertSeen_mem (l : List String) (c x : String) :
    x ∈ insertSeen l c ↔ x ∈ l ∨ x = c := by
  unfold insertSeen
  by_cases h : l.contains c = true
  · rw [if_pos h]
    constructor
    · exact Or.inl
    · rintro (hx | rfl)
      · exact hx
      · exact (strContains_iff_mem l x).mp h
  · rw [if_neg h]
    simp [List.mem_append]

/-- First-seen insertion preserves distinctness of the labels. -/
theorem insertSeen_nodup (l : List String) (c : String) (h : l.Nodup) :
    (insertSeen l c).Nodup := by
  unfold insertSeen
  by_cases hc : l.contains c = true
  · rw [if_pos hc]
    exact h
  · rw [if_neg hc]
    rw [List.nodup_append]
    refine ⟨h, List.nodup_singleton c, ?_⟩
    intro a ha hb
    rcases List.mem_singleton.mp hb with rfl
    exact hc ((strContains_iff_mem l a).mpr ha)

/-- Membership in a fold of first-seen insertions. -/
theorem foldl_insertSeen_mem (cs : List String) (acc : List String) (x : String) :
    x ∈ cs.foldl insertSeen acc ↔ x ∈ acc ∨ x ∈ cs := by
  induction cs generalizing acc with
  | nil => simp
  | cons c0 cs ih =>
    simp only [List.foldl_cons]
    rw [ih, insertSeen_mem]
    simp only [List.mem_cons]
    tauto

/-- A fold of first-seen insertions preserves distinctness. -/
theorem foldl_insertSeen_nodup (cs : List String) (acc : List String)
    (h : acc.Nodup) : (cs.foldl insertSeen acc).Nodup := by
  induction cs generalizing acc with
  | nil => exact h
  | cons c0 cs ih =>
    simp only [List.foldl_cons]
    exact ih _ (insertSeen_nodup acc c0 h)

/-- In an association list with distinct keys, membership of an entry is
exactly key membership with the looked-up count. -/
theorem mem_assoc_of_nodup (m : List (String × Nat))
    (hnd : (m.map Prod.fst).Nodup) (c : String) (n : Nat) :
    (c, n) ∈ m ↔ (c ∈ m.map Prod.fst ∧ getCount m c = n) := by
  induction m with
  | nil => simp [getCount]
  | cons kn rest ih =>
    obtain ⟨k, v⟩ := kn
    simp only [List.map_cons, List.nodup_cons] at hnd
    obtain ⟨hk, hrest⟩ := hnd
    simp only [List.mem_cons, List.map_cons, Prod.mk.injEq]
    constructor
    · rintro (⟨rfl, rfl⟩ | hmem)
      · refine ⟨Or.inl rfl, ?_⟩
        simp [getCount]
      · obtain ⟨hc, hg⟩ := (ih hrest).mp hmem
        refine ⟨Or.inr hc, ?_⟩
        simp only [getCount]
        rw [if_neg ?kc]
        · exact hg
        case kc =>
          intro hkc
          rw [hkc] at hk
          exact hk hc
    · rintro ⟨hor, hg⟩
      rcases hor with rfl | hc
      · left
        refine ⟨rfl, ?_⟩
        simp [getCount] at hg
        omega
      · right
        have hkc : k ≠ c := by
          intro hkc
          rw [hkc] at hk
          exact hk hc
        simp only [getCount] at hg
        rw [if_neg hkc] at hg
        exact (ih hrest).mpr ⟨hc, hg⟩

/-- Per-product occurrence counting: with duplicate-free category arrays, the
occurrences of a label in the concatenated stream count the products whose
categories contain it. -/
theorem count_collectCats (ps : List Product) (c : String)
    (hnd : ∀ p ∈ ps, (p.catsOf).Nodup) :
    (collectCats ps).count c = ps.countP (fun p => (p.catsOf).contains c) := by
  induction ps with
  | nil => rfl
  | cons p ps ih =>
    have hp : (p.catsOf).Nodup := hnd p (List.mem_cons_self _ _)
    have hps : ∀ q ∈ ps, (q.catsOf).Nodup :=
      fun q hq => hnd q (List.mem_cons_of_mem _ hq)
    simp only [collectCats, List.flatMap_cons, List.count_append,
      List.countP_cons]
    rw [show (ps.flatMap Product.catsOf).count c = (collectCats ps).count c from rfl,
      ih hps]
    have h1 : (p.catsOf).count c =
        if (p.catsOf).contains c = true then 1 else 0 := by
      by_cases hc : c ∈ p.catsOf
      · rw [if_pos ((strContains_iff_mem _ _).mpr hc)]
        have upper := List.nodup_iff_count_le_one.mp hp c
        have lower := List.count_pos_iff.mpr hc
        omega
      · rw [if_neg (fun hh => hc ((strContains_iff_mem _ _).mp hh)),
          List.count_eq_zero_of_not_mem hc]
    rw [h1]
    omega

/-- The per-product tally fold equals the fold over the flat label stream. -/
theorem foldl_tally_eq (ps : List Product) (m : List (String × Nat)) :
    ps.foldl (fun m p => (p.catsOf).foldl bump m) m =
      (ps.flatMap Product.catsOf).foldl bump m := by
  induction ps generalizing m with
  | nil => rfl
  | cons p ps ih =>
    simp only [List.foldl_cons, List.flatMap_cons, List.foldl_append]
    exact ih _

/-- The raw tally is the fold of `bump` over the flat label stream. -/
theorem categoryCountsRaw_eq (ps : List Product) :
    categoryCountsRaw ps = (collectCats ps).foldl bump [] :=
  foldl_tally_eq ps []

/-- The flat label stream is as long as the sum of per-product lengths. -/
theorem length_collectCats (ps : List Product) :
    (collectCats ps).length = (ps.map (fun p => (p.catsOf).length)).sum := by
  induction ps with
  | nil => rfl
  | cons p ps ih =>
    simp only [collectCats, List.flatMap_cons, List.length_append, List.map_cons,
      List.sum_cons]
    rw [show (ps.flatMap Product.catsOf).length = (collectCats ps).length from rfl,
      ih]

/-- Stable insertion of an element of the filtered class that dominates the
class puts it in front of the class. -/
theorem insertByDesc_filter_pos (ge : α → α → Bool) (q : α → Bool) (x : α)
    (l : List α) (hx : q x = true)
    (hdom : ∀ y ∈ l, q y = true → ge x y = true) :
    (insertByDesc ge x l).filter q = x :: l.filter q := by
  induction l with
  | nil => simp [insertByDesc, hx]
  | cons y ys ih =>
    simp only [insertByDesc]
    by_cases h : ge x y = true
    · rw [if_pos h, List.filter_cons_of_pos hx]
    · rw [if_neg h]
      have hqy : q y = false := by
        cases hqy : q y
        · rfl
        · exact absurd (hdom y (List.mem_cons_self y ys) hqy) h
      rw [List.filter_cons_of_neg (show ¬q y = true by simp [hqy]),
        List.filter_cons_of_neg (show ¬q y = true by simp [hqy])]
      exact ih (fun z hz hqz => hdom z (List.mem_cons_of_mem _ hz) hqz)

/-- Stable insertion of an element outside the filtered class does not
disturb the class. -/
theorem insertByDesc_filter_neg (ge : α → α → Bool) (q : α → Bool) (x : α)
    (l : List α) (hx : q x = false) :
    (insertByDesc ge x l).filter q = l.filter q := by
  induction l with
  | nil => simp [insertByDesc, hx]
  | cons y ys ih =>
    simp only [insertByDesc]
    by_cases h : ge x y = true
    · rw [if_pos h, List.filter_cons_of_neg (show ¬q x = true by simp [hx])]
    · rw [if_neg h]
      by_cases hqy : q y = true
      · rw [List.filter_cons_of_pos hqy, List.filter_cons_of_pos hqy, ih]
      · rw [List.filter_cons_of_neg hqy, List.filter_cons_of_neg hqy, ih]

/-- The count-descending stable sort never reorders entries that share one
count: each count class reads the same in the sorted and unsorted tallies. -/
theorem sortByDesc_countGe_filter (n : Nat) (l : List (String × Nat)) :
    (sortByDesc countGe l).filter (fun e => e.2 == n) =
      l.filter (fun e => e.2 == n) := by
  induction l with
  | nil => rfl
  | cons x xs ih =>
    show (insertByDesc countGe x (sortByDesc countGe xs)).filter _ = _
    by_cases hx : ((fun e : String × Nat => e.2 == n) x) = true
    · have hdom : ∀ y ∈ sortByDesc countGe xs,
          (fun e : String × Nat => e.2 == n) y = true → countGe x y = true := by
        intro y _ hqy
        have hx2 : x.2 = n := by simpa using hx
        have hy2 : y.2 = n := by simpa using hqy
        simp [countGe, hx2, hy2]
      rw [insertByDesc_filter_pos countGe _ x _ hx hdom, ih,
        @List.filter_cons_of_pos (String × Nat) (fun e => e.2 == n) x xs hx]
    · have hxf : ((fun e : String × Nat => e.2 == n) x) = false := by
        simpa using hx
      rw [insertByDesc_filter_neg countGe _ x _ hxf, ih,
        @List.filter_cons_of_neg (String × Nat) (fun e => e.2 == n) x xs hx]

/-- C5: the category index holds one `{name, count}` entry per distinct label
occurring in the collection, the count of each label is the exact number of
products whose (duplicate-free) category set contains it, the counts total
the number of (product, category) membership pairs, the entries are sorted
by count descending, and ties keep the raw tally's order — which lists the
labels in first-seen scan order. -/
theorem allCategoriesWithCounts_spec (ps : List Product)
    (hnd : ∀ p ∈ ps, (p.catsOf).Nodup) :
    ((allCategoriesWithCounts ps).map Prod.fst).Nodup ∧
    (∀ c, c ∈ (allCategoriesWithCounts ps).map Prod.fst ↔
      ∃ p, p ∈ ps ∧ c ∈ p.catsOf) ∧
    (∀ c n, (c, n) ∈ allCategoriesWithCounts ps →
      n = ps.countP (fun p => (p.catsOf).contains c)) ∧
    ((allCategoriesWithCounts ps).map Prod.snd).sum =
      (ps.map (fun p => (p.catsOf).length)).sum ∧
    (allCategoriesWithCounts ps).Pairwise (fun a b => b.2 ≤ a.2) ∧
    (∀ n, (allCategoriesWithCounts ps).filter (fun e => e.2 == n) =
      (categoryCountsRaw ps).filter (fun e => e.2 == n)) ∧
    (categoryCountsRaw ps).map Prod.fst = firstSeenList (collectCats ps) := by
  have hraw : categoryCountsRaw ps = (collectCats ps).foldl bump [] :=
    categoryCountsRaw_eq ps
  have hkeys : (categoryCountsRaw ps).map Prod.fst =
      firstSeenList (collectCats ps) := by
    rw [hraw, foldl_bump_keys]
    rfl
  have hknodup : ((categoryCountsRaw ps).map Prod.fst).Nodup := by
    rw [hkeys]
    exact foldl_insertSeen_nodup _ _ List.nodup_nil
  have hperm : List.Perm (allCategoriesWithCounts ps) (categoryCountsRaw ps) :=
    sortByDesc_perm _ _
  have hpermkeys : List.Perm ((allCategoriesWithCounts ps).map Prod.fst)
      ((categoryCountsRaw ps).map Prod.fst) := hperm.map _
  have hcount : ∀ c, getCount (categoryCountsRaw ps) c =
      (collectCats ps).count c := by
    intro c
    rw [hraw, foldl_bump_getCount]
    simp [getCount]
  have hmemkeys : ∀ c, c ∈ (categoryCountsRaw ps).map Prod.fst ↔
      c ∈ collectCats ps := by
    intro c
    rw [hkeys]
    unfold firstSeenList
    rw [foldl_insertSeen_mem]
    simp
  refine ⟨?_, ?_, ?_, ?_, ?_, ?_, hkeys⟩
  · exact hpermkeys.nodup_iff.mpr hknodup
  · intro c
    rw [hpermkeys.mem_iff, hmemkeys]
    unfold collectCats
    rw [List.mem_flatMap]
  · intro c n hmem
    have hmem2 : (c, n) ∈ categoryCountsRaw ps := hperm.mem_iff.mp hmem
    have hchar := (mem_assoc_of_nodup _ hknodup c n).mp hmem2
    have h2 := hchar.2
    rw [hcount c, count_collectCats ps c hnd] at h2
    exact h2.symm
  · have hsum : List.Perm ((allCategoriesWithCounts ps).map Prod.snd)
        ((categoryCountsRaw ps).map Prod.snd) := hperm.map _
    rw [hsum.sum_eq, hraw, foldl_bump_sum]
    simp only [List.map_nil, List.sum_nil, Nat.zero_add]
    exact length_collectCats ps
  · have htrans : ∀ a b c : String × Nat,
        countGe a b = true → countGe b c = true → countGe a c = true := by
      intro a b c hab hbc
      simp only [countGe, decide_eq_true_eq] at *
      omega
    have htot : ∀ a b : String × Nat,
        countGe a b = false → countGe b a = true := by
      intro a b hab
      simp only [countGe, decide_eq_false_iff_not, decide_eq_true_eq] at *
      omega
    have hp := sortByDesc_pairwise countGe htrans htot (categoryCountsRaw ps)
    exact hp.imp (fun hab => by simpa [countGe] using hab)
  · intro n
    exact sortByDesc_countGe_filter n _

/-- C5 witness: on the two sample products the index is
`[("sale", 2), ("tools", 1)]`, with distinct labels and counts totalling the
3 membership pairs. -/
theorem allCategoriesWithCounts_spec_witness :
    ((allCategoriesWithCounts productsC5).map Prod.fst).Nodup ∧
    ((allCategoriesWithCounts productsC5).map Prod.snd).sum =
      (productsC5.map (fun p => (p.catsOf).length)).sum :=
  ⟨(allCategoriesWithCounts_spec productsC5 (by decide)).1,
   (allCategoriesWithCounts_spec productsC5 (by decide)).2.2.2.1⟩
